import Mathlib

/-!
Verification of the reminder scheduling engine of the telegram-bot repository,
embedded from src/scripts/reminder_scheduler.py.

Modelling conventions:
* UTC instants are integers counting seconds (second granularity; Python's
  microseconds behave like extra sub-second mass on the "now" side and are
  subsumed by the seconds argument for every property treated here).
* A timezone, as the code actually uses it, is the single fixed UTC offset (in
  minutes) attached to the datetime returned by datetime.now(tz): the code's
  replace / timedelta arithmetic never re-normalizes the offset, so the whole
  per-user computation happens in one constant offset.  Named zones are
  modelled by a finite table giving the offset in effect at "now"
  (pytz.timezone succeeding), fixed-offset strings go through parse_utc_offset
  exactly as in the source.
* The APScheduler job table (add_job with id="reminder_<uid>" and
  replace_existing=True) is an association list keyed by the telegram user id;
  the handle "reminder_<uid>" is in bijection with the id.
* reminder_cache is the module-level dict, an association list here.
* A Python exception escaping the per-user loop is modelled by the pass
  returning the partially mutated state together with an error flag: side
  effects performed before the raise persist, later users are not processed.
-/

/-- A wall-clock reminder time (datetime.time restricted to the hour/minute
fields the scheduler reads). -/
structure WallTime where
  hour : Nat
  minute : Nat
deriving DecidableEq, Repr

/-- One row of fetch_reminder_users():
(telegram_user_id, reminder_time, reminder_timezone). -/
structure UserRow where
  userId : Nat
  rtime : WallTime
  rtz : String
deriving DecidableEq, Repr

/-- One value of reminder_cache:
(reminder_time, reminder_timezone, next_scheduled_time). -/
structure CacheEntry where
  time : WallTime
  tzName : String
  nextUtc : Int
deriving DecidableEq, Repr

/-- The mutable state touched by schedule_all_reminders: the reminder_cache
dict and the APScheduler job table (id "reminder_<uid>" mapped to run_date). -/
structure SchedState where
  cache : List (Nat × CacheEntry)
  jobs : List (Nat × Int)
deriving DecidableEq, Repr

/-- Dictionary lookup on an association list (Python dict.get). -/
def alGet {β : Type} (k : Nat) : List (Nat × β) → Option β
  | [] => none
  | (k', v) :: rest => if k' = k then some v else alGet k rest

/-- Dictionary assignment on an association list (Python dict[k] = v, and
add_job with replace_existing=True): at most one binding per key survives. -/
def alSet {β : Type} (k : Nat) (v : β) (l : List (Nat × β)) : List (Nat × β) :=
  (k, v) :: l.filter (fun p => p.1 ≠ k)

/-- Boolean membership of a key in a list of ids. -/
def idMem (k : Nat) : List Nat → Bool
  | [] => false
  | x :: rest => if x = k then true else idMem k rest

/-- parse_utc_offset, working on the character list of the string:
re.match r starting with sign, two digits, a colon, two digits; returns the
signed total minutes, none models the raised ValueError. -/
def parseOffsetChars : List Char → Option Int
  | [sg, h1, h2, c, m1, m2] =>
    if (sg = '+' ∨ sg = '-') ∧ c = ':' ∧
        h1.isDigit ∧ h2.isDigit ∧ m1.isDigit ∧ m2.isDigit then
      let hours : Int := (h1.toNat - '0'.toNat) * 10 + (h2.toNat - '0'.toNat)
      let minutes : Int := (m1.toNat - '0'.toNat) * 10 + (m2.toNat - '0'.toNat)
      let total : Int := hours * 60 + minutes
      some (if sg = '-' then -total else total)
    else none
  | _ => none

/-- parse_utc_offset(offset_str) from reminder_scheduler.py lines 202-211. -/
def parse_utc_offset (s : String) : Option Int :=
  parseOffsetChars s.data

/-- The offset (minutes east of UTC) in effect at "now" for the named zones
pytz recognizes; a finite representative table standing for the pytz database
(pytz.timezone raising an exception is modelled by none). -/
def namedZoneOffset : String → Option Int
  | "UTC" => some 0
  | "Asia/Kolkata" => some 330
  | "America/New_York" => some (-300)
  | "Europe/London" => some 0
  | _ => none

/-- reminder_timezone.startswith(("+", "-")). -/
def startsWithSign (s : String) : Bool :=
  match s.data with
  | c :: _ => c = '+' ∨ c = '-'
  | [] => false

/-- Timezone resolution of schedule_all_reminders lines 130-138: try
pytz.timezone, on failure fall back to parse_utc_offset when the string
starts with a sign (pytz.FixedOffset additionally requires the absolute
offset to be below 24 hours), otherwise re-raise.  none models an exception
propagating out of the per-user loop. -/
def resolveTz (spec : String) : Option Int :=
  match namedZoneOffset spec with
  | some off => some off
  | none =>
    if startsWithSign spec then
      match parse_utc_offset spec with
      | some off => if -1440 < off ∧ off < 1440 then some off else none
      | none => none
    else none

/-- Seconds in a day. -/
def daySecs : Int := 86400

/-- The local wall-clock position (seconds since local midnight) of a UTC
instant under a fixed offset of off minutes. -/
def localSecOfDay (off utc : Int) : Int := (utc + off * 60) % daySecs

/-- Lines 140-147: now_local = datetime.now(tz);
next_reminder_local = now_local.replace(hour, minute, second=0, microsecond=0);
if next_reminder_local < now_local: += timedelta(days=1);
next_reminder_utc = next_reminder_local.astimezone(utc). -/
def nextReminderUtc (nowUtc off : Int) (t : WallTime) : Int :=
  let nowLocal := nowUtc + off * 60
  let dayStart := nowLocal - nowLocal % daySecs
  let cand := dayStart + (t.hour : Int) * 3600 + (t.minute : Int) * 60
  let cand2 := if cand < nowLocal then cand + daySecs else cand
  cand2 - off * 60

/-- Lines 153-170: the should_schedule decision against the cache. -/
def shouldScheduleB (cached : Option CacheEntry) (t : WallTime) (z : String)
    (next : Int) : Bool :=
  match cached with
  | none => true
  | some e =>
    if t ≠ e.time ∨ z ≠ e.tzName then true
    else decide (300 < (next - e.nextUtc).natAbs)

/-- One iteration of the per-user loop (lines 126-191): resolve the timezone
(none = exception propagates), compute the occurrence, consult the cache and,
when warranted, install the job under the user's handle and update the cache
in the same step.  The boolean reports whether add_job was invoked. -/
def processUser (nowUtc : Int) (st : SchedState) (u : UserRow) :
    Option (SchedState × Bool) :=
  match resolveTz u.rtz with
  | none => none
  | some off =>
    let next := nextReminderUtc nowUtc off u.rtime
    if shouldScheduleB (alGet u.userId st.cache) u.rtime u.rtz next then
      some (⟨alSet u.userId ⟨u.rtime, u.rtz, next⟩ st.cache,
             alSet u.userId next st.jobs⟩, true)
    else
      some (st, false)

/-- The per-user loop over the snapshot.  Returns the final state, the list of
users for which add_job was invoked (scheduled_users, in order), and whether
an exception escaped the loop; on an exception the state mutated so far is
kept and the remaining users are not processed. -/
def runUsers (nowUtc : Int) (st : SchedState) :
    List UserRow → SchedState × List Nat × Bool
  | [] => (st, [], false)
  | u :: rest =>
    match processUser nowUtc st u with
    | none => (st, [], true)
    | some (st', sched) =>
      let r := runUsers nowUtc st' rest
      (r.1, (if sched then [u.userId] else []) ++ r.2.1, r.2.2)

/-- Lines 113-119: evict every cached user absent from the snapshot. -/
def evictStale (cache : List (Nat × CacheEntry)) (ids : List Nat) :
    List (Nat × CacheEntry) :=
  cache.filter (fun p => idMem p.1 ids)

/-- schedule_all_reminders(scheduler) for one snapshot: cache cleanup for
users without reminders, then the scheduling loop. -/
def schedule_all_reminders (nowUtc : Int) (st : SchedState)
    (users : List UserRow) : SchedState × List Nat × Bool :=
  let ids := users.map (fun u => u.userId)
  runUsers nowUtc ⟨evictStale st.cache ids, st.jobs⟩ users


/-- C1: the resolver never returns an instant before "now", lands exactly on
the target wall-clock minute (at second-level truncation, i.e. on the instant
hh:mm:00), is the earliest such instant at or after "now", and adds exactly
one day exactly when today's candidate is strictly before "now". -/
theorem resolver_earliest_at_or_after (nowUtc off : Int) (h m : Nat)
    (hh : h < 24) (hm : m < 60) :
    nowUtc ≤ nextReminderUtc nowUtc off ⟨h, m⟩ ∧
    localSecOfDay off (nextReminderUtc nowUtc off ⟨h, m⟩) = h * 3600 + m * 60 ∧
    (∀ u : Int, nowUtc ≤ u → localSecOfDay off u = h * 3600 + m * 60 →
      nextReminderUtc nowUtc off ⟨h, m⟩ ≤ u) ∧
    ((h : Int) * 3600 + m * 60 < localSecOfDay off nowUtc →
      nextReminderUtc nowUtc off ⟨h, m⟩ =
        nowUtc - localSecOfDay off nowUtc + ((h : Int) * 3600 + m * 60) + daySecs) := by
  simp only [nextReminderUtc, localSecOfDay, daySecs]
  refine ⟨?_, ?_, ?_, ?_⟩
  · split_ifs <;> omega
  · split_ifs <;> omega
  · intro u hu hloc
    split_ifs <;> omega
  · intro hlt
    split_ifs <;> omega

/-- C6 counterexample: "now" with local wall clock 21:00:30 (hour 21, minute
0, nonzero seconds) and target 21:00 in zone +05:30; the resolver does not
return today's occurrence (local 21:00:00 today, i.e. UTC 55800) but pushes
one day ahead. -/
theorem resolver_seconds_push_cex :
    localSecOfDay 330 55830 / 3600 = 21 ∧
    localSecOfDay 330 55830 % 3600 / 60 = 0 ∧
    localSecOfDay 330 55830 % 60 = 30 ∧
    nextReminderUtc 55830 330 ⟨21, 0⟩ ≠ 55800 ∧
    nextReminderUtc 55830 330 ⟨21, 0⟩ = 55800 + daySecs := by decide

/-- C6 amended: the comparison zeroes the seconds of the candidate but not of
"now"; so a "now" lying exactly on hh:mm:00 local yields today's occurrence
("now" itself), while a "now" strictly inside the target minute (nonzero
seconds past hh:mm:00) is pushed to the next day. -/
theorem resolver_truncation_behavior (nowUtc off : Int) (h m : Nat)
    (hh : h < 24) (hm : m < 60) :
    (localSecOfDay off nowUtc = (h : Int) * 3600 + m * 60 →
      nextReminderUtc nowUtc off ⟨h, m⟩ = nowUtc) ∧
    ((h : Int) * 3600 + m * 60 < localSecOfDay off nowUtc →
      localSecOfDay off nowUtc < (h : Int) * 3600 + m * 60 + 60 →
      nextReminderUtc nowUtc off ⟨h, m⟩ =
        nowUtc - (localSecOfDay off nowUtc - ((h : Int) * 3600 + m * 60)) + daySecs) := by
  simp only [nextReminderUtc, localSecOfDay, daySecs]
  constructor
  · intro heq
    split_ifs <;> omega
  · intro h1 h2
    split_ifs <;> omega

/-- C7 counterexample: a minutes component of 99 (above 59) is accepted by
parse_utc_offset and yields 5*60+99 = 399 minutes instead of raising. -/
theorem parse_utc_offset_accepts_oversized_minutes :
    parse_utc_offset "+05:99" = some 399 := by decide

/-- C7 amended: parse_utc_offset succeeds exactly on strings of the shape
sign, two digits, colon, two digits — each digit pair ranging over 00-99 with
no 59 bound on the minutes and no unbounded hour form; every other string is
rejected. -/
theorem parse_utc_offset_shape (s : String) :
    (parse_utc_offset s).isSome = true ↔
    ∃ sg h1 h2 m1 m2 : Char, s.data = [sg, h1, h2, ':', m1, m2] ∧
      (sg = '+' ∨ sg = '-') ∧
      h1.isDigit ∧ h2.isDigit ∧ m1.isDigit ∧ m2.isDigit := by
  rcases s with ⟨l⟩
  simp only [parse_utc_offset]
  rcases l with _ | ⟨sg, _ | ⟨h1, _ | ⟨h2, _ | ⟨c, _ | ⟨m1, _ | ⟨m2, _ | ⟨x, rest⟩⟩⟩⟩⟩⟩⟩ <;>
    simp [parseOffsetChars]
  constructor
  · rintro ⟨hsg, hc, hd1, hd2, hd3, hd4⟩
    exact ⟨sg, h1, h2, m1, m2, ⟨rfl, rfl, rfl, hc, rfl, rfl⟩, hsg, hd1, hd2, hd3, hd4⟩
  · rintro ⟨a, b, d, e, f, ⟨rfl, rfl, rfl, hc, rfl, rfl⟩, hsg, hd1, hd2, hd3, hd4⟩
    exact ⟨hsg, hc, hd1, hd2, hd3, hd4⟩

/-- C8: the three documented parsing examples: "+05:30" parses to +330
minutes, "-04:00" to -240 minutes, and "5:30" (missing sign) is rejected. -/
theorem parse_utc_offset_examples :
    parse_utc_offset "+05:30" = some 330 ∧
    parse_utc_offset "-04:00" = some (-240) ∧
    parse_utc_offset "5:30" = none := by decide

theorem alGet_alSet_self {β : Type} (k : Nat) (v : β) (l : List (Nat × β)) :
    alGet k (alSet k v l) = some v := by
  simp [alGet, alSet]

theorem alGet_filter_key {β : Type} (k : Nat) (q : Nat → Bool)
    (l : List (Nat × β)) :
    alGet k (l.filter (fun p => q p.1)) = if q k then alGet k l else none := by
  induction l with
  | nil => simp [alGet]
  | cons p rest ih =>
    rcases p with ⟨pk, pv⟩
    by_cases hq : q pk
    · rw [List.filter_cons_of_pos (by simpa using hq)]
      simp only [alGet]
      by_cases hk : pk = k
      · subst hk; simp [hq]
      · simp [hk, ih]
    · rw [List.filter_cons_of_neg (by simpa using hq)]
      simp only [alGet, ih]
      by_cases hk : pk = k
      · subst hk; simp [hq]
      · simp [hk]

theorem alGet_alSet_other {β : Type} (k k' : Nat) (v : β) (l : List (Nat × β))
    (h : k' ≠ k) : alGet k' (alSet k v l) = alGet k' l := by
  have h2 := alGet_filter_key k' (fun x => decide (x ≠ k)) l
  simp only [alSet, alGet]
  rw [if_neg (fun he => h he.symm), h2, if_pos (by simpa using h)]

theorem idMem_true_iff (k : Nat) (l : List Nat) : idMem k l = true ↔ k ∈ l := by
  induction l with
  | nil => simp [idMem]
  | cons x rest ih =>
    simp only [idMem, List.mem_cons]
    by_cases hx : x = k
    · subst hx
      simp
    · rw [if_neg hx, ih]
      constructor
      · exact Or.inr
      · rintro (rfl | hm)
        · exact absurd rfl hx
        · exact hm

theorem alGet_evictStale_mem (k : Nat) (c : List (Nat × CacheEntry))
    (ids : List Nat) (h : k ∈ ids) :
    alGet k (evictStale c ids) = alGet k c := by
  have h2 := alGet_filter_key k (fun x => idMem x ids) c
  rw [evictStale, h2, if_pos ((idMem_true_iff k ids).2 h)]

theorem alGet_evictStale_not_mem (k : Nat) (c : List (Nat × CacheEntry))
    (ids : List Nat) (h : k ∉ ids) :
    alGet k (evictStale c ids) = none := by
  have h2 := alGet_filter_key k (fun x => idMem x ids) c
  rw [evictStale, h2, if_neg]
  intro hk
  exact h ((idMem_true_iff k ids).1 hk)

/-- The resolver never returns an instant in the past, for any offset and any
hour/minute fields. -/
theorem nextReminderUtc_ge (nowUtc off : Int) (t : WallTime) :
    nowUtc ≤ nextReminderUtc nowUtc off t := by
  simp only [nextReminderUtc, daySecs]
  split_ifs <;> omega

theorem shouldScheduleB_false_iff (cached : Option CacheEntry) (t : WallTime)
    (z : String) (next : Int) :
    shouldScheduleB cached t z next = false ↔
    ∃ e, cached = some e ∧ t = e.time ∧ z = e.tzName ∧
      (next - e.nextUtc).natAbs ≤ 300 := by
  cases cached with
  | none => simp [shouldScheduleB]
  | some e =>
    simp only [shouldScheduleB, Option.some.injEq]
    split_ifs with h
    · simp only [Bool.true_eq_false, false_iff]
      rintro ⟨e', rfl, ht, hz, -⟩
      rcases h with h | h
      · exact h ht
      · exact h hz
    · push_neg at h
      simp only [decide_eq_false_iff_not, Nat.not_lt]
      constructor
      · intro hle
        exact ⟨e, rfl, h.1, h.2, hle⟩
      · rintro ⟨e', he', -, -, hle⟩
        cases he'
        exact hle

theorem shouldScheduleB_true_iff (cached : Option CacheEntry) (t : WallTime)
    (z : String) (next : Int) :
    shouldScheduleB cached t z next = true ↔
    (cached = none ∨
      ∃ e, cached = some e ∧
        (t ≠ e.time ∨ z ≠ e.tzName ∨ 300 < (next - e.nextUtc).natAbs)) := by
  cases cached with
  | none => simp [shouldScheduleB]
  | some e =>
    simp only [shouldScheduleB, Option.some.injEq, reduceCtorEq, false_or]
    split_ifs with h
    · simp only [true_iff]
      exact ⟨e, rfl, by tauto⟩
    · push_neg at h
      simp only [decide_eq_true_eq]
      constructor
      · intro hlt
        exact ⟨e, rfl, Or.inr (Or.inr hlt)⟩
      · rintro ⟨e', he', hd⟩
        cases he'
        rcases hd with hd | hd | hd
        · exact absurd h.1 hd
        · exact absurd h.2 hd
        · exact hd

theorem processUser_eq_some (nowUtc : Int) (st : SchedState) (u : UserRow)
    (off : Int) (h : resolveTz u.rtz = some off) :
    processUser nowUtc st u =
      (if shouldScheduleB (alGet u.userId st.cache) u.rtime u.rtz
            (nextReminderUtc nowUtc off u.rtime) then
        some (⟨alSet u.userId
                 ⟨u.rtime, u.rtz, nextReminderUtc nowUtc off u.rtime⟩ st.cache,
               alSet u.userId (nextReminderUtc nowUtc off u.rtime) st.jobs⟩,
              true)
      else some (st, false)) := by
  simp [processUser, h]

theorem processUser_eq_none (nowUtc : Int) (st : SchedState) (u : UserRow)
    (h : resolveTz u.rtz = none) : processUser nowUtc st u = none := by
  simp [processUser, h]

theorem processUser_frame (nowUtc : Int) (st st' : SchedState) (u : UserRow)
    (b : Bool) (k : Nat) (hk : k ≠ u.userId)
    (h : processUser nowUtc st u = some (st', b)) :
    alGet k st'.cache = alGet k st.cache ∧ alGet k st'.jobs = alGet k st.jobs := by
  cases hr : resolveTz u.rtz with
  | none => rw [processUser_eq_none _ _ _ hr] at h; cases h
  | some off =>
    rw [processUser_eq_some _ _ _ _ hr] at h
    split_ifs at h with hs
    · cases h
      exact ⟨alGet_alSet_other _ _ _ _ hk, alGet_alSet_other _ _ _ _ hk⟩
    · cases h
      exact ⟨rfl, rfl⟩

theorem runUsers_frame (nowUtc : Int) (users : List UserRow) (st : SchedState)
    (k : Nat) (hk : ∀ u ∈ users, u.userId ≠ k) :
    alGet k (runUsers nowUtc st users).1.cache = alGet k st.cache ∧
    alGet k (runUsers nowUtc st users).1.jobs = alGet k st.jobs ∧
    k ∉ (runUsers nowUtc st users).2.1 := by
  induction users generalizing st with
  | nil => simp [runUsers]
  | cons u rest ih =>
    have hku : k ≠ u.userId := Ne.symm (hk u (by simp))
    cases hp : processUser nowUtc st u with
    | none =>
      simp [runUsers, hp]
    | some sb =>
      rcases sb with ⟨st', b⟩
      have hfr := processUser_frame nowUtc st st' u b k hku hp
      have ihr := ih st' (fun v hv => hk v (List.mem_cons_of_mem _ hv))
      simp only [runUsers, hp]
      refine ⟨by rw [ihr.1, hfr.1], by rw [ihr.2.1, hfr.2], ?_⟩
      rcases ihr with ⟨-, -, hnotin⟩
      cases b <;> simp_all [List.mem_cons]

/-- Invariant linking reminder_cache to the job table: every cached user has a
job installed under their handle whose run date is exactly the cached
next_scheduled_time. -/
def cacheJobsConsistent (st : SchedState) : Prop :=
  ∀ k e, alGet k st.cache = some e → alGet k st.jobs = some e.nextUtc

theorem processUser_consistent (nowUtc : Int) (st st' : SchedState)
    (u : UserRow) (b : Bool) (h : processUser nowUtc st u = some (st', b))
    (hc : cacheJobsConsistent st) : cacheJobsConsistent st' := by
  cases hr : resolveTz u.rtz with
  | none => rw [processUser_eq_none _ _ _ hr] at h; cases h
  | some off =>
    rw [processUser_eq_some _ _ _ _ hr] at h
    split_ifs at h with hs
    · cases h
      intro k e hk
      by_cases hku : k = u.userId
      · subst hku
        rw [alGet_alSet_self] at hk
        cases hk
        rw [alGet_alSet_self]
      · rw [alGet_alSet_other _ _ _ _ hku] at hk
        rw [alGet_alSet_other _ _ _ _ hku]
        exact hc k e hk
    · cases h
      exact hc

theorem runUsers_consistent (nowUtc : Int) (users : List UserRow)
    (st : SchedState) (hc : cacheJobsConsistent st) :
    cacheJobsConsistent (runUsers nowUtc st users).1 := by
  induction users generalizing st with
  | nil => simpa [runUsers] using hc
  | cons u rest ih =>
    cases hp : processUser nowUtc st u with
    | none => simpa [runUsers, hp] using hc
    | some sb =>
      rcases sb with ⟨st', b⟩
      simp only [runUsers, hp]
      exact ih st' (processUser_consistent _ _ _ _ _ hp hc)

theorem evict_consistent (st : SchedState) (ids : List Nat)
    (hc : cacheJobsConsistent st) :
    cacheJobsConsistent ⟨evictStale st.cache ids, st.jobs⟩ := by
  intro k e hk
  have h2 := alGet_filter_key k (fun x => idMem x ids) st.cache
  rw [evictStale, h2] at hk
  split_ifs at hk with hm
  exact hc k e hk

/-- Key uniqueness of an association list: at most one binding per user. -/
def keysNodup {β : Type} (l : List (Nat × β)) : Prop :=
  (l.map Prod.fst).Nodup

theorem keysNodup_alSet {β : Type} (k : Nat) (v : β) (l : List (Nat × β))
    (h : keysNodup l) : keysNodup (alSet k v l) := by
  unfold keysNodup at h ⊢
  simp only [alSet, List.map_cons, List.nodup_cons]
  constructor
  · intro hmem
    rcases List.mem_map.1 hmem with ⟨p, hp, hpk⟩
    have hne := List.of_mem_filter hp
    simp only [decide_eq_true_eq] at hne
    exact hne hpk
  · exact h.sublist ((List.filter_sublist _).map Prod.fst)

theorem processUser_keysNodup (nowUtc : Int) (st st' : SchedState)
    (u : UserRow) (b : Bool) (h : processUser nowUtc st u = some (st', b))
    (hk : keysNodup st.jobs) : keysNodup st'.jobs := by
  cases hr : resolveTz u.rtz with
  | none => rw [processUser_eq_none _ _ _ hr] at h; cases h
  | some off =>
    rw [processUser_eq_some _ _ _ _ hr] at h
    split_ifs at h with hs
    · cases h
      exact keysNodup_alSet _ _ _ hk
    · cases h
      exact hk

theorem runUsers_keysNodup (nowUtc : Int) (users : List UserRow)
    (st : SchedState) (hk : keysNodup st.jobs) :
    keysNodup (runUsers nowUtc st users).1.jobs := by
  induction users generalizing st with
  | nil => simpa [runUsers] using hk
  | cons u rest ih =>
    cases hp : processUser nowUtc st u with
    | none => simpa [runUsers, hp] using hk
    | some sb =>
      rcases sb with ⟨st', b⟩
      simp only [runUsers, hp]
      exact ih st' (processUser_keysNodup _ _ _ _ _ hp hk)

theorem runUsers_jobs_cases (nowUtc : Int) (users : List UserRow)
    (st : SchedState) (k : Nat) :
    alGet k (runUsers nowUtc st users).1.jobs = alGet k st.jobs ∨
    ∃ f, alGet k (runUsers nowUtc st users).1.jobs = some f ∧ nowUtc ≤ f := by
  induction users generalizing st with
  | nil => left; simp [runUsers]
  | cons u rest ih =>
    cases hp : processUser nowUtc st u with
    | none => left; simp [runUsers, hp]
    | some sb =>
      rcases sb with ⟨st', b⟩
      simp only [runUsers, hp]
      rcases ih st' with hsame | ⟨f, hf, hle⟩
      · cases hr : resolveTz u.rtz with
        | none => rw [processUser_eq_none _ _ _ hr] at hp; cases hp
        | some off =>
          rw [processUser_eq_some _ _ _ _ hr] at hp
          split_ifs at hp with hs
          · cases hp
            by_cases hku : k = u.userId
            · subst hku
              right
              refine ⟨_, ?_, nextReminderUtc_ge nowUtc off u.rtime⟩
              rw [hsame, alGet_alSet_self]
            · left
              rw [hsame]
              exact alGet_alSet_other _ _ _ _ hku
          · cases hp
            left
            exact hsame
      · right
        exact ⟨f, hf, hle⟩

theorem runUsers_jobs_isSome_mono (nowUtc : Int) (users : List UserRow)
    (st : SchedState) (k : Nat) (h : (alGet k st.jobs).isSome = true) :
    (alGet k (runUsers nowUtc st users).1.jobs).isSome = true := by
  rcases runUsers_jobs_cases nowUtc users st k with hsame | ⟨f, hf, -⟩
  · rw [hsame]; exact h
  · rw [hf]; rfl

theorem processUser_installs (nowUtc : Int) (st st' : SchedState) (u : UserRow)
    (off : Int) (b : Bool) (hoff : resolveTz u.rtz = some off)
    (hc : cacheJobsConsistent st)
    (hp : processUser nowUtc st u = some (st', b)) :
    (alGet u.userId st'.jobs).isSome = true := by
  rw [processUser_eq_some _ _ _ _ hoff] at hp
  split_ifs at hp with hs
  · cases hp
    rw [alGet_alSet_self]
    rfl
  · cases hp
    rcases (shouldScheduleB_false_iff _ _ _ _).1 (by simpa using hs) with
      ⟨e, he, -, -, -⟩
    rw [hc u.userId e he]
    rfl

theorem runUsers_jobs_present (nowUtc : Int) (users : List UserRow)
    (st : SchedState)
    (hvalid : ∀ v ∈ users, (resolveTz v.rtz).isSome = true)
    (hc : cacheJobsConsistent st) :
    ∀ u ∈ users,
      (alGet u.userId (runUsers nowUtc st users).1.jobs).isSome = true := by
  induction users generalizing st with
  | nil => intro u hu; cases hu
  | cons v rest ih =>
    intro u hu
    rcases Option.isSome_iff_exists.1 (hvalid v (by simp)) with ⟨off, hoff⟩
    have hne : processUser nowUtc st v ≠ none := by
      rw [processUser_eq_some _ _ _ _ hoff]
      split_ifs <;> simp
    rcases hx : processUser nowUtc st v with _ | ⟨st', b⟩
    · exact absurd hx hne
    · simp only [runUsers, hx]
      have hc' := processUser_consistent _ _ _ _ _ hx hc
      rcases List.mem_cons.1 hu with rfl | hur
      · exact runUsers_jobs_isSome_mono _ _ _ _
          (processUser_installs _ _ _ _ _ _ hoff hc hx)
      · exact ih st' (fun w hw => hvalid w (List.mem_cons_of_mem _ hw)) hc' u hur

/-- C9: a user present in the cache but absent from the snapshot has their
cache entry removed by one rescan pass, while the user's pending job is not
cancelled or modified: it is left to fire its last scheduled occurrence. -/
theorem evicted_user_cache_removed_job_untouched (nowUtc : Int)
    (st : SchedState) (users : List UserRow) (k : Nat)
    (hcached : (alGet k st.cache).isSome = true)
    (habsent : ∀ u ∈ users, u.userId ≠ k) :
    alGet k (schedule_all_reminders nowUtc st users).1.cache = none ∧
    alGet k (schedule_all_reminders nowUtc st users).1.jobs = alGet k st.jobs := by
  simp only [schedule_all_reminders]
  have hids : k ∉ users.map (fun u => u.userId) := by
    intro hmem
    rcases List.mem_map.1 hmem with ⟨u, hu, he⟩
    exact habsent u hu he
  have hfr := runUsers_frame nowUtc users
      ⟨evictStale st.cache (users.map (fun u => u.userId)), st.jobs⟩ k habsent
  refine ⟨?_, ?_⟩
  · rw [hfr.1]
    exact alGet_evictStale_not_mem _ _ _ hids
  · rw [hfr.2.1]

/-- C9 witness: user 7 is cached (with a pending job at run date 100) but
absent from the snapshot; its cache entry is gone and its job untouched. -/
theorem evicted_user_cache_removed_job_untouched_witness :
    alGet 7 (schedule_all_reminders 0
        ⟨[(7, ⟨⟨9, 0⟩, "UTC", 100⟩)], [(7, 100)]⟩
        [⟨1, ⟨9, 0⟩, "UTC"⟩]).1.cache = none ∧
    alGet 7 (schedule_all_reminders 0
        ⟨[(7, ⟨⟨9, 0⟩, "UTC", 100⟩)], [(7, 100)]⟩
        [⟨1, ⟨9, 0⟩, "UTC"⟩]).1.jobs = alGet 7 [(7, 100)] :=
  evicted_user_cache_removed_job_untouched 0
    ⟨[(7, ⟨⟨9, 0⟩, "UTC", 100⟩)], [(7, 100)]⟩ [⟨1, ⟨9, 0⟩, "UTC"⟩] 7
    (by decide) (by decide)

/-- C10: the empty startup state is cache-consistent, and every rescan pass
preserves the invariant that each cached entry's stored next fire instant is
exactly the run date of the most recently installed job for that user (so a
cache entry never exists for a user for whom no job was installed). -/
theorem cache_entries_match_installed_jobs :
    cacheJobsConsistent ⟨[], []⟩ ∧
    ∀ nowUtc st users, cacheJobsConsistent st →
      cacheJobsConsistent (schedule_all_reminders nowUtc st users).1 := by
  constructor
  · intro k e hk
    simp [alGet] at hk
  · intro nowUtc st users hc
    simp only [schedule_all_reminders]
    exact runUsers_consistent _ _ _ (evict_consistent st _ hc)

/-- C10 witness: the invariant applied to one pass from the startup state. -/
theorem cache_entries_match_installed_jobs_witness :
    cacheJobsConsistent
      (schedule_all_reminders 0 ⟨[], []⟩ [⟨1, ⟨9, 0⟩, "+05:30"⟩]).1 := by
  have h := cache_entries_match_installed_jobs
  exact h.2 0 ⟨[], []⟩ [⟨1, ⟨9, 0⟩, "+05:30"⟩] h.1

/-- C4: after a rescan pass over a snapshot of valid users, starting from a
state with unique job handles whose cache matches the job table, every
snapshot user has exactly one pending job (handles are unique and the user's
handle is present), and every job this pass installed or replaced has a run
date at or after "now" (never scheduled in the past). -/
theorem one_pending_job_per_user (nowUtc : Int) (st : SchedState)
    (users : List UserRow)
    (hvalid : ∀ v ∈ users, (resolveTz v.rtz).isSome = true)
    (hkeys : keysNodup st.jobs)
    (hc : cacheJobsConsistent st) :
    keysNodup (schedule_all_reminders nowUtc st users).1.jobs ∧
    (∀ u ∈ users,
      (alGet u.userId (schedule_all_reminders nowUtc st users).1.jobs).isSome
        = true) ∧
    (∀ k f, alGet k (schedule_all_reminders nowUtc st users).1.jobs = some f →
      alGet k st.jobs ≠ some f → nowUtc ≤ f) := by
  simp only [schedule_all_reminders]
  refine ⟨runUsers_keysNodup _ _ _ hkeys,
          runUsers_jobs_present _ _ _ hvalid (evict_consistent st _ hc), ?_⟩
  intro k f hf hne
  rcases runUsers_jobs_cases nowUtc users
      ⟨evictStale st.cache (users.map (fun u => u.userId)), st.jobs⟩ k with
    hsame | ⟨f', hf', hle⟩
  · rw [hsame] at hf
    exact absurd hf hne
  · rw [hf'] at hf
    cases hf
    exact hle

/-- C4 witness: one pass from the startup state installs a job for user 1. -/
theorem one_pending_job_per_user_witness :
    (alGet 1 (schedule_all_reminders 0 ⟨[], []⟩
        [⟨1, ⟨21, 0⟩, "+05:30"⟩]).1.jobs).isSome = true := by
  have h := one_pending_job_per_user 0 ⟨[], []⟩ [⟨1, ⟨21, 0⟩, "+05:30"⟩]
    (by decide) (by simp [keysNodup]) (fun k e hk => by simp [alGet] at hk)
  exact h.2.1 ⟨1, ⟨21, 0⟩, "+05:30"⟩ (by simp)

theorem runUsers_abort (nowUtc : Int) (pre : List UserRow) (st : SchedState)
    (post : List UserRow) (u : UserRow)
    (hpre : ∀ v ∈ pre, (resolveTz v.rtz).isSome = true)
    (hu : resolveTz u.rtz = none) :
    runUsers nowUtc st (pre ++ u :: post) =
      ((runUsers nowUtc st pre).1, (runUsers nowUtc st pre).2.1, true) := by
  induction pre generalizing st with
  | nil =>
    simp [runUsers, processUser_eq_none _ _ _ hu]
  | cons v pre ih =>
    rcases Option.isSome_iff_exists.1 (hpre v (by simp)) with ⟨off, hoff⟩
    have hne : processUser nowUtc st v ≠ none := by
      rw [processUser_eq_some _ _ _ _ hoff]
      split_ifs <;> simp
    rcases hx : processUser nowUtc st v with _ | ⟨st', b⟩
    · exact absurd hx hne
    · have ihx := ih st' (fun w hw => hpre w (List.mem_cons_of_mem _ hw))
      simp only [List.cons_append, runUsers, hx, List.append_eq, ihx]

/-- C3 amended: a malformed timezone specifier (neither a recognized named
zone nor a sign-prefixed string) makes the per-user loop raise: the users
before the malformed one in the same pass are processed normally and their
effects kept, but the malformed user and every user after it in that pass are
skipped, and the error escapes schedule_all_reminders (the hourly loop of
start_reminder_scheduler catches and logs it and keeps running; the initial
startup call does not catch it). -/
theorem malformed_tz_aborts_pass (nowUtc : Int) (st : SchedState)
    (pre post : List UserRow) (u : UserRow)
    (hpre : ∀ v ∈ pre, (resolveTz v.rtz).isSome = true)
    (hu : resolveTz u.rtz = none) :
    schedule_all_reminders nowUtc st (pre ++ u :: post) =
      (let st0 : SchedState :=
        ⟨evictStale st.cache ((pre ++ u :: post).map (fun v => v.userId)),
         st.jobs⟩
       ((runUsers nowUtc st0 pre).1, (runUsers nowUtc st0 pre).2.1, true)) := by
  simp only [schedule_all_reminders]
  exact runUsers_abort nowUtc pre _ post u hpre hu

/-- C3 counterexample: snapshot [user 1 at +05:30, user 2 with malformed zone
"Bad/Zone", user 3 at UTC]: the pass errors out, schedules only user 1, and
never processes user 3 (no job installed for it) — contradicting "skips only
that user and continues to process every other user in the same pass". -/
theorem malformed_tz_skips_rest_cex :
    (schedule_all_reminders 0 ⟨[], []⟩
      [⟨1, ⟨9, 0⟩, "+05:30"⟩, ⟨2, ⟨9, 0⟩, "Bad/Zone"⟩,
       ⟨3, ⟨9, 0⟩, "UTC"⟩]).2.2 = true ∧
    (schedule_all_reminders 0 ⟨[], []⟩
      [⟨1, ⟨9, 0⟩, "+05:30"⟩, ⟨2, ⟨9, 0⟩, "Bad/Zone"⟩,
       ⟨3, ⟨9, 0⟩, "UTC"⟩]).2.1 = [1] ∧
    alGet 3 (schedule_all_reminders 0 ⟨[], []⟩
      [⟨1, ⟨9, 0⟩, "+05:30"⟩, ⟨2, ⟨9, 0⟩, "Bad/Zone"⟩,
       ⟨3, ⟨9, 0⟩, "UTC"⟩]).1.jobs = none := by
  decide

/-- C3 witness: the amended behavior at a concrete two-user snapshot whose
second user has the malformed zone. -/
theorem malformed_tz_aborts_pass_witness :
    schedule_all_reminders 0 ⟨[], []⟩
        ([⟨1, ⟨9, 0⟩, "+05:30"⟩] ++ (⟨2, ⟨9, 0⟩, "Bad/Zone"⟩ : UserRow) :: []) =
      (let st0 : SchedState :=
        ⟨evictStale ([] : List (Nat × CacheEntry))
          (([(⟨1, ⟨9, 0⟩, "+05:30"⟩ : UserRow)] ++
              (⟨2, ⟨9, 0⟩, "Bad/Zone"⟩ : UserRow) :: []).map (fun v => v.userId)),
         ([] : List (Nat × Int))⟩
       ((runUsers 0 st0 [⟨1, ⟨9, 0⟩, "+05:30"⟩]).1,
        (runUsers 0 st0 [⟨1, ⟨9, 0⟩, "+05:30"⟩]).2.1, true)) :=
  malformed_tz_aborts_pass 0 ⟨[], []⟩ [⟨1, ⟨9, 0⟩, "+05:30"⟩] []
    ⟨2, ⟨9, 0⟩, "Bad/Zone"⟩ (by decide) (by decide)

/-- Number of occurrences of a user id in the scheduled_users list. -/
def natCount (k : Nat) : List Nat → Nat
  | [] => 0
  | x :: rest => (if x = k then 1 else 0) + natCount k rest

theorem natCount_append (k : Nat) (l1 l2 : List Nat) :
    natCount k (l1 ++ l2) = natCount k l1 + natCount k l2 := by
  induction l1 with
  | nil => simp [natCount]
  | cons x rest ih => simp [natCount, ih, Nat.add_assoc]

theorem natCount_eq_zero (k : Nat) (l : List Nat) (h : k ∉ l) :
    natCount k l = 0 := by
  induction l with
  | nil => rfl
  | cons x rest ih =>
    simp only [List.mem_cons, not_or] at h
    simp only [natCount, ih h.2]
    rw [if_neg (fun he => h.1 he.symm)]

theorem runUsers_spec_at (nowUtc : Int) (users : List UserRow)
    (st : SchedState) (u : UserRow) (off : Int) (hu : u ∈ users)
    (hnodup : (users.map (fun v => v.userId)).Nodup)
    (hvalid : ∀ v ∈ users, (resolveTz v.rtz).isSome = true)
    (hoff : resolveTz u.rtz = some off) :
    (shouldScheduleB (alGet u.userId st.cache) u.rtime u.rtz
        (nextReminderUtc nowUtc off u.rtime) = true →
      natCount u.userId (runUsers nowUtc st users).2.1 = 1 ∧
      alGet u.userId (runUsers nowUtc st users).1.jobs =
        some (nextReminderUtc nowUtc off u.rtime) ∧
      alGet u.userId (runUsers nowUtc st users).1.cache =
        some ⟨u.rtime, u.rtz, nextReminderUtc nowUtc off u.rtime⟩) ∧
    (shouldScheduleB (alGet u.userId st.cache) u.rtime u.rtz
        (nextReminderUtc nowUtc off u.rtime) = false →
      natCount u.userId (runUsers nowUtc st users).2.1 = 0 ∧
      alGet u.userId (runUsers nowUtc st users).1.jobs =
        alGet u.userId st.jobs ∧
      alGet u.userId (runUsers nowUtc st users).1.cache =
        alGet u.userId st.cache) := by
  induction users generalizing st with
  | nil => cases hu
  | cons v rest ih =>
    simp only [List.map_cons, List.nodup_cons] at hnodup
    rcases List.mem_cons.1 hu with rfl | hur
    · have hnotin : ∀ w ∈ rest, w.userId ≠ u.userId := by
        intro w hw he
        exact hnodup.1 (he ▸ List.mem_map.2 ⟨w, hw, rfl⟩)
      constructor
      · intro hs
        have hp : processUser nowUtc st u =
            some (⟨alSet u.userId
                     ⟨u.rtime, u.rtz, nextReminderUtc nowUtc off u.rtime⟩
                     st.cache,
                   alSet u.userId (nextReminderUtc nowUtc off u.rtime)
                     st.jobs⟩, true) := by
          rw [processUser_eq_some _ _ _ _ hoff, if_pos hs]
        have hfr := runUsers_frame nowUtc rest
            ⟨alSet u.userId ⟨u.rtime, u.rtz, nextReminderUtc nowUtc off u.rtime⟩
               st.cache,
             alSet u.userId (nextReminderUtc nowUtc off u.rtime) st.jobs⟩
            u.userId hnotin
        simp only [runUsers, hp]
        refine ⟨?_, ?_, ?_⟩
        · rw [natCount_append, natCount_eq_zero _ _ hfr.2.2]
          simp [natCount]
        · rw [hfr.2.1, alGet_alSet_self]
        · rw [hfr.1, alGet_alSet_self]
      · intro hs
        have hp : processUser nowUtc st u = some (st, false) := by
          rw [processUser_eq_some _ _ _ _ hoff, if_neg]
          rw [Bool.not_eq_true]
          exact hs
        have hfr := runUsers_frame nowUtc rest st u.userId hnotin
        simp only [runUsers, hp]
        refine ⟨?_, hfr.2.1, hfr.1⟩
        rw [natCount_eq_zero _ _ (by simpa using hfr.2.2)]
    · have hvne : v.userId ≠ u.userId := by
        intro he
        exact hnodup.1 (he ▸ List.mem_map.2 ⟨u, hur, rfl⟩)
      rcases Option.isSome_iff_exists.1 (hvalid v (by simp)) with ⟨offv, hoffv⟩
      have hne : processUser nowUtc st v ≠ none := by
        rw [processUser_eq_some _ _ _ _ hoffv]
        split_ifs <;> simp
      rcases hx : processUser nowUtc st v with _ | ⟨st', b⟩
      · exact absurd hx hne
      · have hfr := processUser_frame nowUtc st st' v b u.userId
          (Ne.symm hvne) hx
        have ihx := ih st' hur hnodup.2
          (fun w hw => hvalid w (List.mem_cons_of_mem _ hw))
        have hcount0 : natCount u.userId (if b = true then [v.userId] else [])
            = 0 := by
          cases b <;> simp [natCount, hvne]
        constructor
        · intro hs
          have hs' : shouldScheduleB (alGet u.userId st'.cache) u.rtime u.rtz
              (nextReminderUtc nowUtc off u.rtime) = true := by
            rw [hfr.1]
            exact hs
          have hres := ihx.1 hs'
          simp only [runUsers, hx]
          exact ⟨by rw [natCount_append, hcount0, hres.1],
                 hres.2.1, hres.2.2⟩
        · intro hs
          have hs' : shouldScheduleB (alGet u.userId st'.cache) u.rtime u.rtz
              (nextReminderUtc nowUtc off u.rtime) = false := by
            rw [hfr.1]
            exact hs
          have hres := ihx.2 hs'
          simp only [runUsers, hx]
          refine ⟨by rw [natCount_append, hcount0, hres.1],
                  by rw [hres.2.1, hfr.2], by rw [hres.2.2, hfr.1]⟩

/-- C2: within one rescan pass over a snapshot with distinct user ids and
resolvable timezones, a user's job is installed or replaced (exactly one
add_job call) if and only if no cache entry exists for the user, or the
snapshot's wall time or timezone specifier differs from the cached ones, or
the newly resolved occurrence differs from the cached one by more than 300
seconds; when it schedules, the same step writes the cache entry carrying the
new occurrence, and otherwise the user's job and cache entry are untouched. -/
theorem rescan_change_detection (nowUtc : Int) (st : SchedState)
    (users : List UserRow) (u : UserRow) (off : Int)
    (hu : u ∈ users)
    (hnodup : (users.map (fun v => v.userId)).Nodup)
    (hvalid : ∀ v ∈ users, (resolveTz v.rtz).isSome = true)
    (hoff : resolveTz u.rtz = some off) :
    ((alGet u.userId st.cache = none ∨
      (∃ e, alGet u.userId st.cache = some e ∧
        (u.rtime ≠ e.time ∨ u.rtz ≠ e.tzName ∨
          300 < (nextReminderUtc nowUtc off u.rtime - e.nextUtc).natAbs))) →
      natCount u.userId (schedule_all_reminders nowUtc st users).2.1 = 1 ∧
      alGet u.userId (schedule_all_reminders nowUtc st users).1.jobs =
        some (nextReminderUtc nowUtc off u.rtime) ∧
      alGet u.userId (schedule_all_reminders nowUtc st users).1.cache =
        some ⟨u.rtime, u.rtz, nextReminderUtc nowUtc off u.rtime⟩) ∧
    ((∃ e, alGet u.userId st.cache = some e ∧ u.rtime = e.time ∧
        u.rtz = e.tzName ∧
        (nextReminderUtc nowUtc off u.rtime - e.nextUtc).natAbs ≤ 300) →
      natCount u.userId (schedule_all_reminders nowUtc st users).2.1 = 0 ∧
      alGet u.userId (schedule_all_reminders nowUtc st users).1.jobs =
        alGet u.userId st.jobs ∧
      alGet u.userId (schedule_all_reminders nowUtc st users).1.cache =
        alGet u.userId st.cache) := by
  have hmem : u.userId ∈ users.map (fun v => v.userId) :=
    List.mem_map.2 ⟨u, hu, rfl⟩
  have hevict : alGet u.userId
      (evictStale st.cache (users.map (fun v => v.userId))) =
      alGet u.userId st.cache := alGet_evictStale_mem _ _ _ hmem
  have hspec := runUsers_spec_at nowUtc users
      ⟨evictStale st.cache (users.map (fun v => v.userId)), st.jobs⟩
      u off hu hnodup hvalid hoff
  simp only [schedule_all_reminders]
  constructor
  · intro hcond
    have hsb : shouldScheduleB
        (alGet u.userId (evictStale st.cache (users.map (fun v => v.userId))))
        u.rtime u.rtz (nextReminderUtc nowUtc off u.rtime) = true := by
      rw [hevict, shouldScheduleB_true_iff]
      exact hcond
    exact hspec.1 hsb
  · intro hcond
    have hsb : shouldScheduleB
        (alGet u.userId (evictStale st.cache (users.map (fun v => v.userId))))
        u.rtime u.rtz (nextReminderUtc nowUtc off u.rtime) = false := by
      rw [hevict, shouldScheduleB_false_iff]
      exact hcond
    have hres := hspec.2 hsb
    exact ⟨hres.1, hres.2.1, by rw [hres.2.2, hevict]⟩

/-- C2 witness: user 1 cached at 09:00 while the snapshot reports 21:00 in
zone +05:30; the pass schedules exactly once with the new occurrence and
rewrites the cache entry. -/
theorem rescan_change_detection_witness :
    natCount 1 (schedule_all_reminders 0
      ⟨[(1, ⟨⟨9, 0⟩, "+05:30", 100⟩)], [(1, 100)]⟩
      [⟨1, ⟨21, 0⟩, "+05:30"⟩]).2.1 = 1 ∧
    alGet 1 (schedule_all_reminders 0
      ⟨[(1, ⟨⟨9, 0⟩, "+05:30", 100⟩)], [(1, 100)]⟩
      [⟨1, ⟨21, 0⟩, "+05:30"⟩]).1.jobs =
      some (nextReminderUtc 0 330 ⟨21, 0⟩) ∧
    alGet 1 (schedule_all_reminders 0
      ⟨[(1, ⟨⟨9, 0⟩, "+05:30", 100⟩)], [(1, 100)]⟩
      [⟨1, ⟨21, 0⟩, "+05:30"⟩]).1.cache =
      some ⟨⟨21, 0⟩, "+05:30", nextReminderUtc 0 330 ⟨21, 0⟩⟩ :=
  (rescan_change_detection 0 ⟨[(1, ⟨⟨9, 0⟩, "+05:30", 100⟩)], [(1, 100)]⟩
      [⟨1, ⟨21, 0⟩, "+05:30"⟩] ⟨1, ⟨21, 0⟩, "+05:30"⟩ 330
      (by decide) (by decide) (by decide) (by decide)).1
    (Or.inr ⟨⟨⟨9, 0⟩, "+05:30", 100⟩, by decide, Or.inl (by decide)⟩)

/-- A user whose cache entry already matches the snapshot configuration and
whose cached occurrence is within the 300 second tolerance of the freshly
resolved one. -/
def cacheFresh (nowUtc : Int) (st : SchedState) (u : UserRow) : Prop :=
  ∃ off e, resolveTz u.rtz = some off ∧ alGet u.userId st.cache = some e ∧
    e.time = u.rtime ∧ e.tzName = u.rtz ∧
    (nextReminderUtc nowUtc off u.rtime - e.nextUtc).natAbs ≤ 300

theorem processUser_skips (nowUtc : Int) (st : SchedState) (u : UserRow)
    (hf : cacheFresh nowUtc st u) :
    processUser nowUtc st u = some (st, false) := by
  rcases hf with ⟨off, e, hoff, he, ht, hz, hd⟩
  rw [processUser_eq_some _ _ _ _ hoff, if_neg]
  rw [Bool.not_eq_true, shouldScheduleB_false_iff]
  exact ⟨e, he, ht.symm, hz.symm, hd⟩

theorem runUsers_fresh_skips (nowUtc : Int) (users : List UserRow)
    (st : SchedState) (hf : ∀ u ∈ users, cacheFresh nowUtc st u) :
    runUsers nowUtc st users = (st, [], false) := by
  induction users with
  | nil => rfl
  | cons u rest ih =>
    have hp := processUser_skips nowUtc st u (hf u (by simp))
    simp [runUsers, hp, ih (fun w hw => hf w (List.mem_cons_of_mem _ hw))]

theorem runUsers_makes_fresh (nowUtc : Int) (users : List UserRow)
    (st : SchedState)
    (hnodup : (users.map (fun v => v.userId)).Nodup)
    (hvalid : ∀ v ∈ users, (resolveTz v.rtz).isSome = true) :
    ∀ u ∈ users, cacheFresh nowUtc (runUsers nowUtc st users).1 u := by
  induction users generalizing st with
  | nil => intro u hu; cases hu
  | cons v rest ih =>
    simp only [List.map_cons, List.nodup_cons] at hnodup
    intro u hu
    rcases Option.isSome_iff_exists.1 (hvalid v (by simp)) with ⟨offv, hoffv⟩
    have hne : processUser nowUtc st v ≠ none := by
      rw [processUser_eq_some _ _ _ _ hoffv]
      split_ifs <;> simp
    rcases hx : processUser nowUtc st v with _ | ⟨st', b⟩
    · exact absurd hx hne
    · simp only [runUsers, hx]
      rcases List.mem_cons.1 hu with rfl | hur
      · have hnotin : ∀ w ∈ rest, w.userId ≠ u.userId := by
          intro w hw he
          exact hnodup.1 (he ▸ List.mem_map.2 ⟨w, hw, rfl⟩)
        have hfr := runUsers_frame nowUtc rest st' u.userId hnotin
        have hfresh : cacheFresh nowUtc st' u := by
          rw [processUser_eq_some _ _ _ _ hoffv] at hx
          split_ifs at hx with hs
          · cases hx
            exact ⟨offv, ⟨u.rtime, u.rtz, nextReminderUtc nowUtc offv u.rtime⟩,
                   hoffv, alGet_alSet_self _ _ _, rfl, rfl, by simp⟩
          · cases hx
            rcases (shouldScheduleB_false_iff _ _ _ _).1 (by simpa using hs)
              with ⟨e, he, ht, hz, hd⟩
            exact ⟨offv, e, hoffv, he, ht.symm, hz.symm, hd⟩
        rcases hfresh with ⟨off, e, hoff, he, ht, hz, hd⟩
        exact ⟨off, e, hoff, by rw [hfr.1]; exact he, ht, hz, hd⟩
      · exact ih st' hnodup.2
          (fun w hw => hvalid w (List.mem_cons_of_mem _ hw)) u hur

/-- C5: running the rescan procedure twice in succession with an unchanged
snapshot (distinct user ids, resolvable timezones) and the same notion of
"now" produces zero add_job calls on the second pass: every user is
suppressed by the cache within the 300 second tolerance. -/
theorem rescan_idempotent (nowUtc : Int) (st : SchedState)
    (users : List UserRow)
    (hnodup : (users.map (fun v => v.userId)).Nodup)
    (hvalid : ∀ v ∈ users, (resolveTz v.rtz).isSome = true) :
    (schedule_all_reminders nowUtc
        (schedule_all_reminders nowUtc st users).1 users).2 = ([], false) := by
  have hfresh : ∀ u ∈ users,
      cacheFresh nowUtc (schedule_all_reminders nowUtc st users).1 u := by
    simp only [schedule_all_reminders]
    exact runUsers_makes_fresh nowUtc users _ hnodup hvalid
  have hfresh2 : ∀ u ∈ users,
      cacheFresh nowUtc
        ⟨evictStale (schedule_all_reminders nowUtc st users).1.cache
            (users.map (fun v => v.userId)),
          (schedule_all_reminders nowUtc st users).1.jobs⟩ u := by
    intro u hu
    rcases hfresh u hu with ⟨off, e, hoff, he, ht, hz, hd⟩
    refine ⟨off, e, hoff, ?_, ht, hz, hd⟩
    rw [alGet_evictStale_mem _ _ _ (List.mem_map.2 ⟨u, hu, rfl⟩)]
    exact he
  conv_lhs => rw [schedule_all_reminders]
  rw [runUsers_fresh_skips nowUtc users _ hfresh2]

/-- C5 witness: a two-user snapshot rescanned twice from the startup state;
the second pass schedules nothing and raises nothing. -/
theorem rescan_idempotent_witness :
    (schedule_all_reminders 0
      (schedule_all_reminders 0 ⟨[], []⟩
        [⟨1, ⟨9, 0⟩, "+05:30"⟩, ⟨2, ⟨21, 30⟩, "UTC"⟩]).1
      [⟨1, ⟨9, 0⟩, "+05:30"⟩, ⟨2, ⟨21, 30⟩, "UTC"⟩]).2 = ([], false) :=
  rescan_idempotent 0 ⟨[], []⟩ [⟨1, ⟨9, 0⟩, "+05:30"⟩, ⟨2, ⟨21, 30⟩, "UTC"⟩]
    (by decide) (by decide)

/-- C1 witness: now = UTC 0, zone +05:30, target 21:00; the resolved instant
is at or after "now" and lands on the 21:00 local wall-clock minute. -/
theorem resolver_earliest_at_or_after_witness :
    (0 : Int) ≤ nextReminderUtc 0 330 ⟨21, 0⟩ ∧
    localSecOfDay 330 (nextReminderUtc 0 330 ⟨21, 0⟩) = 21 * 3600 + 0 * 60 :=
  ⟨(resolver_earliest_at_or_after 0 330 21 0 (by decide) (by decide)).1,
   (resolver_earliest_at_or_after 0 330 21 0 (by decide) (by decide)).2.1⟩

/-- C6 witness: "now" exactly at 21:00:00 local in zone +05:30 yields today's
occurrence, i.e. "now" itself. -/
theorem resolver_truncation_behavior_witness :
    nextReminderUtc 55800 330 ⟨21, 0⟩ = 55800 :=
  (resolver_truncation_behavior 55800 330 21 0 (by decide) (by decide)).1
    (by decide)
